import Mathlib

/-!
Verification development for the quick-nas extension runtime.

The definitions below are a shallow embedding of the JavaScript source:
`validatePath` and `getFolderMetadata` from `server.js`, and the
`PluginManager` class from `lib/PluginManager.js`.  Strings are handled
through their character lists; asynchronous fallible operations are
modelled with `Except`; the filesystem is modelled as an explicit tree
value handed to the functions that read it.
-/

deriving instance DecidableEq for Except

namespace QuickNAS

/-! ## Path sandbox (server.js, validatePath) -/

/-- Splits a character list at every '/' character, keeping empty chunks,
    as JavaScript path code conceptually does when normalizing. -/
def splitOnSlash : List Char → List (List Char)
  | [] => [[]]
  | c :: rest =>
    if c = '/' then [] :: splitOnSlash rest
    else
      match splitOnSlash rest with
      | [] => [[c]]
      | s :: ss => (c :: s) :: ss

/-- Nonempty path segments of a character list. -/
def pathSegments (l : List Char) : List (List Char) :=
  (splitOnSlash l).filter (fun s => !s.isEmpty)

/-- Models the JavaScript substring test `cleaned.includes that looks for
    two consecutive dot characters anywhere in the string. -/
def hasDotDot : List Char → Bool
  | [] => false
  | [_] => false
  | a :: b :: rest => (a == '.' && b == '.') || hasDotDot (b :: rest)

/-- Models posix `path.isAbsolute`: true exactly when the string starts
    with a slash. -/
def isAbsoluteChars : List Char → Bool
  | [] => false
  | c :: _ => c == '/'

/-- Models the leading half of the regular expression replace in
    `validatePath`, which removes every leading slash. -/
def dropLeadingSlashes (l : List Char) : List Char :=
  l.dropWhile (fun c => c == '/')

/-- Models the trailing half of the regular expression replace in
    `validatePath`, which removes every trailing slash. -/
def dropTrailingSlashes (l : List Char) : List Char :=
  (l.reverse.dropWhile (fun c => c == '/')).reverse

/-- Models `userPath.replace` with the regular expression removing
    leading and trailing slash runs. -/
def stripSlashes (l : List Char) : List Char :=
  dropTrailingSlashes (dropLeadingSlashes l)

/-- Joins segments with single slashes, the rendering half of posix path
    normalization. -/
def intercalateSlash : List (List Char) → List Char
  | [] => []
  | [s] => s
  | s :: ss => s ++ '/' :: intercalateSlash ss

/-- The segment-stack normalization of posix paths: drops empty and
    current-directory segments and resolves parent-directory segments
    against the stack, as Node does for an absolute path. -/
def normalizeSegments : List (List Char) → List (List Char) → List (List Char)
  | stack, [] => stack
  | stack, seg :: rest =>
    if seg = ['.'] then normalizeSegments stack rest
    else if seg = ['.', '.'] then normalizeSegments stack.dropLast rest
    else normalizeSegments (stack ++ [seg]) rest

/-- Models Node's `path.join(a, b)` for an absolute first argument:
    concatenate with a separator and normalize the result. -/
def posixJoin (a b : List Char) : List Char :=
  let segs := normalizeSegments [] (pathSegments (a ++ '/' :: b))
  if segs = [] then ['/'] else '/' :: intercalateSlash segs

/-- The storage root, the default value of the UPLOAD_DIR environment
    variable in server.js (also fixed by the image build). -/
def UPLOAD_DIR : String := "/data"

/-- Shallow embedding of `validatePath` from server.js: empty or root
    input resolves to the storage root; otherwise leading and trailing
    slashes are stripped, inputs containing two consecutive dots or
    absolute after stripping are rejected, the remainder is joined to the
    root, and the result must start with the root. -/
def validatePath (userPath : String) : Except String String :=
  if userPath = "" ∨ userPath = "/" then .ok UPLOAD_DIR
  else if hasDotDot (stripSlashes userPath.data)
      || isAbsoluteChars (stripSlashes userPath.data) then
    .error "Invalid path"
  else if !(UPLOAD_DIR.data.isPrefixOf
      (posixJoin UPLOAD_DIR.data (stripSlashes userPath.data))) then
    .error "Path outside storage directory"
  else .ok (String.mk (posixJoin UPLOAD_DIR.data (stripSlashes userPath.data)))

/-! ## Folder summarizer (server.js, getFolderMetadata and the /api/files route) -/

/-- The filesystem as seen by `getFolderMetadata`: a file with a size, a
    readable directory with a stat size and named children, or a directory
    whose contents cannot be read (permission failure), which still stats
    successfully. -/
inductive FsNode where
  | file (size : Nat)
  | dir (size : Nat) (children : List (String × FsNode))
  | badDir (size : Nat)

/-- Size reported by `fs.stat` for a node. -/
def statSize : FsNode → Nat
  | .file n => n
  | .dir n _ => n
  | .badDir n => n

/-- Result of `stats.isDirectory()` for a node. -/
def isDirectoryNode : FsNode → Bool
  | .file _ => false
  | .dir _ _ => true
  | .badDir _ => true

/-- Models `fs.readdir`: succeeds with the children of a readable
    directory, rejects on a file or an unreadable directory. -/
def readdirNode : FsNode → Except String (List (String × FsNode))
  | .file _ => .error "ENOTDIR"
  | .dir _ cs => .ok cs
  | .badDir _ => .error "EACCES"

/-- The inner loop of `getFolderMetadata`: adds the stat size of every
    entry of a child directory, file or directory alike. -/
def sumSubSizes : List (String × FsNode) → Nat
  | [] => 0
  | (_, c) :: rest => statSize c + sumSubSizes rest

/-- The record returned by `getFolderMetadata`. -/
structure FolderMeta where
  itemCount : Nat
  totalSize : Nat
deriving DecidableEq

/-- The main loop of `getFolderMetadata` with its two accumulators: every
    child counts once; a child directory is read again and contributes the
    stat sizes of its own entries, a file contributes its size.  A read
    failure on a child directory rejects the whole computation, exactly as
    the awaited promise rejection does in the source. -/
def metaLoop : List (String × FsNode) → Nat → Nat → Except String FolderMeta
  | [], itemCount, totalSize => .ok ⟨itemCount, totalSize⟩
  | (_, child) :: rest, itemCount, totalSize =>
    if isDirectoryNode child then
      match readdirNode child with
      | .error e => .error e
      | .ok subItems => metaLoop rest (itemCount + 1) (totalSize + sumSubSizes subItems)
    else metaLoop rest (itemCount + 1) (totalSize + statSize child)

/-- Shallow embedding of `getFolderMetadata` from server.js. -/
def getFolderMetadata (node : FsNode) : Except String FolderMeta :=
  match readdirNode node with
  | .error e => .error e
  | .ok items => metaLoop items 0 0

/-- Modelled from the spec: the contribution of one direct child to
    `totalSize`, a file contributing its size and a child subdirectory the
    sum of its own direct children's sizes (an unreadable one nothing). -/
def childContribution : FsNode → Nat
  | .file n => n
  | .dir _ cs => sumSubSizes cs
  | .badDir _ => 0

/-- Modelled from the spec: `FolderSummarizer.summarize` as worded in the
    specification, itemCount the number of direct children and totalSize
    the sum of the children's contributions. -/
def summarizeSpec (cs : List (String × FsNode)) : FolderMeta :=
  ⟨cs.length, (cs.map (fun c => childContribution c.2)).sum⟩

/-- One listing entry produced by the /api/files route; the optional
    itemCount is present only for directories. -/
structure EntryInfo where
  ename : String
  esize : Nat
  isDirectory : Bool
  itemCount : Option Nat
deriving DecidableEq

/-- Per-entry metadata logic of the /api/files route: the base record uses
    the stat size; for a directory the folder metadata is attempted, and a
    failure is caught, reporting itemCount 0 and keeping the stat size. -/
def buildEntryInfo (ename : String) (node : FsNode) : EntryInfo :=
  let base : EntryInfo := ⟨ename, statSize node, isDirectoryNode node, none⟩
  if isDirectoryNode node then
    match getFolderMetadata node with
    | .ok m => { base with itemCount := some m.itemCount, esize := m.totalSize }
    | .error _ => { base with itemCount := some 0 }
  else base

/-- The /api/files listing over a directory: reads the directory and maps
    every child through the per-entry metadata logic. -/
def listDirectory (node : FsNode) : Except String (List EntryInfo) :=
  match readdirNode node with
  | .error e => .error e
  | .ok items => .ok (items.map (fun c => buildEntryInfo c.1 c.2))

/-! ## Plugin manager (lib/PluginManager.js) -/

/-- Introspection record stored in `this.plugins` for a loaded plugin
    (the module handle itself carries no further observable data and is
    omitted). -/
structure StoredPlugin where
  pname : String
  version : String
  description : String
deriving DecidableEq

/-- A route registration contributed by a plugin through `addRoute`. -/
structure Route (ρ : Type) where
  method : String
  rpath : String
  handler : ρ

/-- The mutable state of one PluginManager instance: the plugins map, the
    hooks map (both keyed by strings, insertion ordered as a JavaScript
    Map is) and the route list.  κ is the type of hook callbacks, ρ the
    type of route handlers. -/
structure ManagerState (κ ρ : Type) where
  plugins : List (String × StoredPlugin)
  hooks : List (String × List κ)
  routes : List (Route ρ)

/-- The state built by the PluginManager constructor. -/
def initialState {κ ρ : Type} : ManagerState κ ρ := ⟨[], [], []⟩

/-- JavaScript Map set-or-create-then-push used by `registerHook`: an
    existing key has the callback pushed onto its list, a new key is
    appended with a one-element list. -/
def insertHook {κ : Type} : List (String × List κ) → String → κ → List (String × List κ)
  | [], n, cb => [(n, [cb])]
  | (m, cbs) :: rest, n, cb =>
    if m = n then (m, cbs ++ [cb]) :: rest
    else (m, cbs) :: insertHook rest n cb

/-- Shallow embedding of `registerHook`. -/
def registerHook {κ ρ : Type} (st : ManagerState κ ρ) (hookName : String) (cb : κ) :
    ManagerState κ ρ :=
  { st with hooks := insertHook st.hooks hookName cb }

/-- Shallow embedding of `addRoute`: pushes onto the route list. -/
def addRoute {κ ρ : Type} (st : ManagerState κ ρ) (r : Route ρ) : ManagerState κ ρ :=
  { st with routes := st.routes ++ [r] }

/-- Models `this.hooks.get(hookName) || []`. -/
def lookupHooks {κ : Type} (hooks : List (String × List κ)) (n : String) : List κ :=
  (hooks.lookup n).getD []

/-- What one awaited hook callback can do: return a value, return nothing
    (undefined), or throw. -/
inductive HookOutcome (α : Type) where
  | ret : Option α → HookOutcome α
  | thrown : String → HookOutcome α

/-- A hook callback over payload type α. -/
abbrev Callback (α : Type) := α → HookOutcome α

/-- The body of the `executeHook` loop for one callback: a returned value
    replaces the payload, undefined and a thrown (caught and logged)
    error both leave it unchanged. -/
def applyCallback {α : Type} (cb : Callback α) (d : α) : α :=
  match cb d with
  | .ret (some v) => v
  | .ret none => d
  | .thrown _ => d

/-- The `executeHook` loop over the callback list, threading the payload. -/
def runCallbacks {α : Type} : List (Callback α) → α → α
  | [], r => r
  | cb :: rest, r =>
    match cb r with
    | .ret (some v) => runCallbacks rest v
    | .ret none => runCallbacks rest r
    | .thrown _ => runCallbacks rest r

/-- Shallow embedding of `executeHook`: looks up the callbacks, returns
    the payload unchanged when there are none, otherwise runs the loop. -/
def executeHook {α ρ : Type} (st : ManagerState (Callback α) ρ) (hookName : String)
    (data : α) : α :=
  let callbacks := lookupHooks st.hooks hookName
  if callbacks.length = 0 then data
  else runCallbacks callbacks data

/-- JavaScript truthiness of `value || fallback` on an optional string:
    an absent or empty string falls back. -/
def jsOr (v : Option String) (d : String) : String :=
  match v with
  | some s => if s = "" then d else s
  | none => d

/-- The parsed per-plugin config.json record; only the reserved `enabled`
    field is consulted by the manager. -/
structure Config where
  enabled : Option Bool
deriving DecidableEq

/-- What `require(indexPath)` yields together with what its `init`
    function does when invoked: the exported metadata, whether `init`
    exists, the hook and route registrations `init` performs, and whether
    `init` throws after performing them. -/
structure PluginModule (κ ρ : Type) where
  mname : Option String
  version : Option String
  description : Option String
  hasInit : Bool
  hookRegs : List (String × κ)
  routeRegs : List (Route ρ)
  initThrows : Bool

/-- One candidate plugin directory on disk: its name, whether index.js
    exists, the parsed config (field absent when config.json is missing)
    and the module index.js resolves to. -/
structure PluginOnDisk (κ ρ : Type) where
  dirName : String
  hasIndex : Bool
  config : Config
  module : PluginModule κ ρ

/-- The introspection record `loadPlugin` stores on success, with the
    JavaScript || defaults applied. -/
def mkStored {κ ρ : Type} (p : PluginOnDisk κ ρ) : StoredPlugin :=
  ⟨jsOr p.module.mname p.dirName, jsOr p.module.version "1.0.0",
    jsOr p.module.description ""⟩

/-- The hook registrations an `init` call performs, in call order. -/
def applyHookRegs {κ ρ : Type} (st : ManagerState κ ρ) (regs : List (String × κ)) :
    ManagerState κ ρ :=
  regs.foldl (fun s r => registerHook s r.1 r.2) st

/-- The route registrations an `init` call performs, in call order. -/
def applyRouteRegs {κ ρ : Type} (st : ManagerState κ ρ) (rs : List (Route ρ)) :
    ManagerState κ ρ :=
  rs.foldl (fun s r => addRoute s r) st

/-- JavaScript Map set used by `this.plugins.set`: replaces the value at
    an existing key in place, appends a new key. -/
def insertPlugin : List (String × StoredPlugin) → String → StoredPlugin →
    List (String × StoredPlugin)
  | [], k, v => [(k, v)]
  | (k', v') :: rest, k, v =>
    if k' = k then (k, v) :: rest
    else (k', v') :: insertPlugin rest k v

/-- Shallow embedding of `this.plugins.set(pluginName, ...)`. -/
def setPlugin {κ ρ : Type} (st : ManagerState κ ρ) (key : String) (v : StoredPlugin) :
    ManagerState κ ρ :=
  { st with plugins := insertPlugin st.plugins key v }

/-- Shallow embedding of `loadPlugin`: skip when index.js is missing;
    skip when the config disables the plugin; skip when `init` is not a
    function (validatePlugin); otherwise run `init`, whose registrations
    take effect, and record the plugin unless `init` threw (the catch
    block logs and leaves the plugin unrecorded). -/
def loadPlugin {κ ρ : Type} (st : ManagerState κ ρ) (p : PluginOnDisk κ ρ) :
    ManagerState κ ρ :=
  if !p.hasIndex then st
  else if p.config.enabled = some false then st
  else if !p.module.hasInit then st
  else
    let st1 := applyRouteRegs (applyHookRegs st p.module.hookRegs) p.module.routeRegs
    if p.module.initThrows then st1
    else setPlugin st1 p.dirName (mkStored p)

/-- One entry of the plugins directory as `fs.readdir` with file types
    reports it: a plain file, or a subdirectory holding a candidate
    plugin. -/
inductive PluginsDirEntry (κ ρ : Type) where
  | file (fname : String)
  | subdir (p : PluginOnDisk κ ρ)

/-- The name of a plugins-directory entry. -/
def entryName {κ ρ : Type} : PluginsDirEntry κ ρ → String
  | .file n => n
  | .subdir p => p.dirName

/-- The reserved-name test of `loadPlugins`: names starting with an
    underscore or a dot are excluded (the two startsWith tests of the
    source, expressed on the first character). -/
def isReservedName (n : String) : Bool :=
  match n.data with
  | [] => false
  | c :: _ => c == '_' || c == '.'

/-- The discovery filter of `loadPlugins`: keeps exactly the
    subdirectories whose names are not reserved, in the order the
    directory read returned them. -/
def discoverPlugins {κ ρ : Type} (entries : List (PluginsDirEntry κ ρ)) :
    List (PluginOnDisk κ ρ) :=
  entries.filterMap (fun e =>
    match e with
    | .file _ => none
    | .subdir p => if isReservedName p.dirName then none else some p)

/-- Shallow embedding of `loadPlugins`: discovery followed by loading
    each candidate in order. -/
def loadPlugins {κ ρ : Type} (st : ManagerState κ ρ)
    (entries : List (PluginsDirEntry κ ρ)) : ManagerState κ ρ :=
  (discoverPlugins entries).foldl loadPlugin st

/-- Shallow embedding of `getPluginInfo`: the stored values in insertion
    order, projected to their three introspection fields. -/
def getPluginInfo {κ ρ : Type} (st : ManagerState κ ρ) : List StoredPlugin :=
  st.plugins.map (fun q => q.2)

/-- Shallow embedding of `getRoutes`. -/
def getRoutes {κ ρ : Type} (st : ManagerState κ ρ) : List (Route ρ) :=
  st.routes

/-- A plugin that loads successfully end to end: index.js present, not
    disabled, `init` present and returning without throwing. -/
def wellFormed {κ ρ : Type} (p : PluginOnDisk κ ρ) : Bool :=
  p.hasIndex && !(p.config.enabled == some false) && p.module.hasInit
    && !p.module.initThrows

/-- A plugin whose load attempt fails: entry module missing, `init`
    missing, or `init` throwing. -/
def loadFails {κ ρ : Type} (p : PluginOnDisk κ ρ) : Bool :=
  !p.hasIndex || !p.module.hasInit || p.module.initThrows

/-- Every child of a directory can be read if it is itself a directory
    (no permission failures among the direct children). -/
def childrenReadable (cs : List (String × FsNode)) : Bool :=
  cs.all (fun c =>
    match c.2 with
    | .badDir _ => false
    | _ => true)

/-! ## Concrete fixtures used by the witnesses -/

/-- A callback adding ten to a numeric payload. -/
def cbAddTen : Callback Nat := fun n => HookOutcome.ret (some (n + 10))

/-- A callback that throws. -/
def cbThrow : Callback Nat := fun _ => HookOutcome.thrown "boom"

/-- A callback doubling a numeric payload. -/
def cbDouble : Callback Nat := fun n => HookOutcome.ret (some (n * 2))

/-- A manager state with three callbacks registered on one hook, the
    second of which throws. -/
def demoHookState : ManagerState (Callback Nat) Nat :=
  ⟨[], [("transformFileList", [cbAddTen, cbThrow, cbDouble])], []⟩

/-- A well-formed plugin directory. -/
def demoGoodPlugin : PluginOnDisk Nat Nat :=
  ⟨"alpha", true, ⟨none⟩, ⟨some "Alpha", some "2.0.0", some "demo", true, [("beforeUpload", 1)], [], false⟩⟩

/-- A malformed plugin directory whose module lacks an init function. -/
def demoBadPlugin : PluginOnDisk Nat Nat :=
  ⟨"broken", true, ⟨none⟩, ⟨none, none, none, false, [], [], false⟩⟩

/-- A plugin directory disabled by its configuration record. -/
def demoDisabledPlugin : PluginOnDisk Nat Nat :=
  ⟨"muted", true, ⟨some false⟩, ⟨some "Muted", none, none, true, [("afterUpload", 9)], [], false⟩⟩

/-- A plugin directory exporting no name, version or description. -/
def demoBarePlugin : PluginOnDisk Nat Nat :=
  ⟨"bare", true, ⟨none⟩, ⟨none, none, none, true, [], [], false⟩⟩

/-- A plugin directory named beta, listed before acorn by the directory
    read. -/
def demoPluginBeta : PluginOnDisk Nat Nat :=
  ⟨"beta", true, ⟨none⟩, ⟨none, none, none, true, [], [], false⟩⟩

/-- A plugin directory named acorn, listed after beta by the directory
    read. -/
def demoPluginAcorn : PluginOnDisk Nat Nat :=
  ⟨"acorn", true, ⟨none⟩, ⟨none, none, none, true, [], [], false⟩⟩

/-- A directory of three files and one empty subdirectory. -/
def demoFolder : List (String × FsNode) :=
  [("a.txt", .file 10), ("b.txt", .file 20), ("c.txt", .file 30), ("sub", .dir 4096 [])]

/-! ## Path sandbox lemmas -/

theorem splitOnSlash_ne_nil (l : List Char) : splitOnSlash l ≠ [] := by
  cases l with
  | nil => simp [splitOnSlash]
  | cons c rest =>
    simp only [splitOnSlash]
    split
    · simp
    · split
      · simp
      · simp

theorem splitOnSlash_exists_cons (l : List Char) :
    ∃ s ss, splitOnSlash l = s :: ss := by
  cases h : splitOnSlash l with
  | nil => exact absurd h (splitOnSlash_ne_nil l)
  | cons s ss => exact ⟨s, ss, rfl⟩

theorem splitOnSlash_slash (l : List Char) :
    splitOnSlash ('/' :: l) = [] :: splitOnSlash l := by
  simp [splitOnSlash]

theorem splitOnSlash_cons_of_ne (c : Char) (l : List Char) (hc : c ≠ '/')
    (s : List Char) (ss : List (List Char)) (hs : splitOnSlash l = s :: ss) :
    splitOnSlash (c :: l) = (c :: s) :: ss := by
  simp [splitOnSlash, hc, hs]

theorem splitOnSlash_head_eq (l : List Char) (c : Char) (s : List Char)
    (ss : List (List Char)) (h : splitOnSlash l = (c :: s) :: ss) :
    ∃ t, l = c :: t := by
  cases l with
  | nil => simp [splitOnSlash] at h
  | cons a rest =>
    by_cases ha : a = '/'
    · subst ha
      rw [splitOnSlash_slash] at h
      simp at h
    · obtain ⟨s₀, ss₀, hs⟩ := splitOnSlash_exists_cons rest
      rw [splitOnSlash_cons_of_ne a rest ha s₀ ss₀ hs] at h
      simp only [List.cons.injEq] at h
      exact ⟨rest, by rw [h.1.1]⟩

theorem hasDotDot_of_cons (c : Char) (l : List Char)
    (h : hasDotDot (c :: l) = false) : hasDotDot l = false := by
  cases l with
  | nil => rfl
  | cons b t =>
    rw [show hasDotDot (c :: b :: t)
        = ((c == '.' && b == '.') || hasDotDot (b :: t)) from rfl] at h
    exact (Bool.or_eq_false_iff.mp h).2

theorem segments_no_dotdot (l : List Char) (h : hasDotDot l = false) :
    ∀ s ∈ splitOnSlash l, hasDotDot s = false := by
  induction l with
  | nil =>
    intro s hs
    simp [splitOnSlash] at hs
    subst hs
    rfl
  | cons c rest ih =>
    have hrest : hasDotDot rest = false := hasDotDot_of_cons c rest h
    intro s hs
    by_cases hc : c = '/'
    · subst hc
      rw [splitOnSlash_slash] at hs
      rcases List.mem_cons.mp hs with h1 | h2
      · subst h1; rfl
      · exact ih hrest s h2
    · obtain ⟨s₀, ss₀, hsp⟩ := splitOnSlash_exists_cons rest
      rw [splitOnSlash_cons_of_ne c rest hc s₀ ss₀ hsp] at hs
      rcases List.mem_cons.mp hs with h1 | h2
      · subst h1
        have h₀ : hasDotDot s₀ = false :=
          ih hrest s₀ (by rw [hsp]; exact List.mem_cons_self _ _)
        cases s₀ with
        | nil => rfl
        | cons d s₁ =>
          rw [show hasDotDot (c :: d :: s₁)
              = ((c == '.' && d == '.') || hasDotDot (d :: s₁)) from rfl,
            h₀, Bool.or_false]
          by_cases h1 : c = '.'
          · by_cases h2 : d = '.'
            · exfalso
              obtain ⟨t, ht⟩ := splitOnSlash_head_eq rest d s₁ ss₀ hsp
              rw [ht, h1, h2] at h
              rw [show hasDotDot ('.' :: '.' :: t)
                  = (('.' == '.' && '.' == '.') || hasDotDot ('.' :: t)) from rfl] at h
              simp at h
            · simp [h2]
          · simp [h1]
      · exact ih hrest s (by rw [hsp]; exact List.mem_cons_of_mem _ h2)

theorem splitOnSlash_no_slash (l : List Char) :
    ∀ s ∈ splitOnSlash l, '/' ∉ s := by
  induction l with
  | nil =>
    intro s hs
    simp [splitOnSlash] at hs
    subst hs
    simp
  | cons c rest ih =>
    intro s hs
    by_cases hc : c = '/'
    · subst hc
      rw [splitOnSlash_slash] at hs
      rcases List.mem_cons.mp hs with h1 | h2
      · subst h1; simp
      · exact ih s h2
    · obtain ⟨s₀, ss₀, hsp⟩ := splitOnSlash_exists_cons rest
      rw [splitOnSlash_cons_of_ne c rest hc s₀ ss₀ hsp] at hs
      rcases List.mem_cons.mp hs with h1 | h2
      · subst h1
        intro hmem
        rcases List.mem_cons.mp hmem with h3 | h4
        · exact hc h3.symm
        · exact ih s₀ (by rw [hsp]; exact List.mem_cons_self _ _) h4
      · exact ih s (by rw [hsp]; exact List.mem_cons_of_mem _ h2)

theorem splitOnSlash_append (s : List Char) : ∀ m : List Char, '/' ∉ s →
    ∀ (c : List Char) (cs : List (List Char)), splitOnSlash m = c :: cs →
    splitOnSlash (s ++ m) = (s ++ c) :: cs := by
  induction s with
  | nil =>
    intro m _ c cs hm
    simpa using hm
  | cons a s' ih =>
    intro m h c cs hm
    have ha : a ≠ '/' := fun he => h (by rw [he]; exact List.mem_cons_self _ _)
    have h' : '/' ∉ s' := fun hm' => h (List.mem_cons_of_mem _ hm')
    have ih' := ih m h' c cs hm
    rw [List.cons_append, splitOnSlash_cons_of_ne a (s' ++ m) ha (s' ++ c) cs ih']
    simp

theorem splitOnSlash_intercalate : ∀ L : List (List Char),
    (∀ s ∈ L, s ≠ [] ∧ '/' ∉ s) → L ≠ [] →
    splitOnSlash (intercalateSlash L) = L := by
  intro L
  induction L with
  | nil => intro _ hne; exact absurd rfl hne
  | cons s rest ih =>
    intro hL _
    have hs := hL s (List.mem_cons_self _ _)
    cases rest with
    | nil =>
      have happ := splitOnSlash_append s [] hs.2 [] [] rfl
      simpa using happ
    | cons t ts =>
      have hrest := ih (fun x hx => hL x (List.mem_cons_of_mem _ hx)) (by simp)
      have hslash : splitOnSlash ('/' :: intercalateSlash (t :: ts))
          = [] :: t :: ts := by
        rw [splitOnSlash_slash, hrest]
      have happ := splitOnSlash_append s ('/' :: intercalateSlash (t :: ts))
        hs.2 [] (t :: ts) hslash
      rw [show intercalateSlash (s :: t :: ts)
          = s ++ '/' :: intercalateSlash (t :: ts) from rfl]
      simpa using happ

theorem normalizeSegments_no_parent : ∀ (l stack : List (List Char)),
    (∀ s ∈ l, s ≠ ['.', '.']) →
    normalizeSegments stack l = stack ++ l.filter (fun s => !(s == ['.'])) := by
  intro l
  induction l with
  | nil => intro stack _; simp [normalizeSegments]
  | cons s rest ih =>
    intro stack h
    have hs : s ≠ ['.', '.'] := h s (List.mem_cons_self _ _)
    have hrest := fun x hx => h x (List.mem_cons_of_mem _ hx)
    by_cases hd : s = ['.']
    · subst hd
      simp only [normalizeSegments, if_pos rfl]
      rw [ih stack hrest]
      simp [List.filter_cons]
    · simp only [normalizeSegments, if_neg hd, if_neg hs]
      rw [ih (stack ++ [s]) hrest]
      have hp : (!(s == ['.'])) = true := by
        simp [hd]
      simp [List.filter_cons, hp]

theorem dropWhile_head_not (p : Char → Bool) : ∀ (l : List Char) (c : Char)
    (t : List Char), l.dropWhile p = c :: t → p c = false := by
  intro l
  induction l with
  | nil => intro c t h; simp [List.dropWhile] at h
  | cons a l' ih =>
    intro c t h
    by_cases ha : p a = true
    · rw [List.dropWhile_cons_of_pos ha] at h
      exact ih c t h
    · rw [List.dropWhile_cons_of_neg ha] at h
      simp only [List.cons.injEq] at h
      rw [← h.1]
      simpa using ha

theorem stripSlashes_not_absolute (l : List Char) :
    isAbsoluteChars (stripSlashes l) = false := by
  unfold stripSlashes dropTrailingSlashes
  cases hr : ((dropLeadingSlashes l).reverse.dropWhile (fun c => c == '/')).reverse with
  | nil => rfl
  | cons c t =>
    obtain ⟨u, hu⟩ := List.dropWhile_suffix (fun c => c == '/')
      (l := (dropLeadingSlashes l).reverse)
    have hdl : dropLeadingSlashes l
        = ((dropLeadingSlashes l).reverse.dropWhile (fun c => c == '/')).reverse
          ++ u.reverse := by
      have := congrArg List.reverse hu
      simpa using this.symm
    rw [hr] at hdl
    have hc : (fun c => c == '/') c = false := by
      apply dropWhile_head_not (fun c => c == '/') l c (t ++ u.reverse)
      rw [show l.dropWhile (fun c => c == '/') = dropLeadingSlashes l from rfl, hdl]
      simp
    exact hc

theorem splitOnSlash_root_concat (b : List Char) :
    splitOnSlash (UPLOAD_DIR.data ++ '/' :: b)
      = [] :: ['d', 'a', 't', 'a'] :: splitOnSlash b := by
  have h0 : splitOnSlash ('/' :: b) = [] :: splitOnSlash b := splitOnSlash_slash b
  have h1 : splitOnSlash ('a' :: '/' :: b) = ['a'] :: splitOnSlash b :=
    splitOnSlash_cons_of_ne 'a' ('/' :: b) (by decide) [] (splitOnSlash b) h0
  have h2 : splitOnSlash ('t' :: 'a' :: '/' :: b) = ['t', 'a'] :: splitOnSlash b :=
    splitOnSlash_cons_of_ne 't' _ (by decide) ['a'] (splitOnSlash b) h1
  have h3 : splitOnSlash ('a' :: 't' :: 'a' :: '/' :: b)
      = ['a', 't', 'a'] :: splitOnSlash b :=
    splitOnSlash_cons_of_ne 'a' _ (by decide) ['t', 'a'] (splitOnSlash b) h2
  have h4 : splitOnSlash ('d' :: 'a' :: 't' :: 'a' :: '/' :: b)
      = ['d', 'a', 't', 'a'] :: splitOnSlash b :=
    splitOnSlash_cons_of_ne 'd' _ (by decide) ['a', 't', 'a'] (splitOnSlash b) h3
  show splitOnSlash ('/' :: 'd' :: 'a' :: 't' :: 'a' :: '/' :: b) = _
  rw [splitOnSlash_slash, h4]

theorem pathSegments_root_concat (b : List Char) :
    pathSegments (UPLOAD_DIR.data ++ '/' :: b)
      = ['d', 'a', 't', 'a'] :: pathSegments b := by
  rw [pathSegments, splitOnSlash_root_concat]
  simp [pathSegments, List.filter_cons]

theorem posixJoin_root (cleaned : List Char) (h : hasDotDot cleaned = false) :
    posixJoin UPLOAD_DIR.data cleaned
      = '/' :: intercalateSlash (['d', 'a', 't', 'a']
          :: (pathSegments cleaned).filter (fun s => !(s == ['.']))) := by
  have hnp : ∀ s ∈ pathSegments cleaned, s ≠ ['.', '.'] := by
    intro s hs heq
    have hmem : s ∈ splitOnSlash cleaned := (List.mem_filter.mp hs).1
    have hdd := segments_no_dotdot cleaned h s hmem
    rw [heq] at hdd
    exact absurd hdd (by decide)
  simp only [posixJoin]
  rw [pathSegments_root_concat]
  rw [show normalizeSegments [] (['d', 'a', 't', 'a'] :: pathSegments cleaned)
      = normalizeSegments [['d', 'a', 't', 'a']] (pathSegments cleaned) from by
    simp only [normalizeSegments, if_neg (by decide : ¬ (['d', 'a', 't', 'a'] = ['.']))]
    rw [if_neg (by decide : ¬ (['d', 'a', 't', 'a'] = ['.', '.']))]
    rfl]
  rw [normalizeSegments_no_parent (pathSegments cleaned) [['d', 'a', 't', 'a']] hnp]
  rw [if_neg (by simp)]
  rfl

theorem isPrefixOf_append_right (l t : List Char) : l.isPrefixOf (l ++ t) = true := by
  induction l with
  | nil => simp [List.isPrefixOf]
  | cons a as ih => simp [List.isPrefixOf, ih]

theorem root_isPrefixOf_join (cleaned : List Char) (h : hasDotDot cleaned = false) :
    UPLOAD_DIR.data.isPrefixOf (posixJoin UPLOAD_DIR.data cleaned) = true := by
  rw [posixJoin_root cleaned h]
  cases hf : (pathSegments cleaned).filter (fun s => !(s == ['.'])) with
  | nil => decide
  | cons x xs =>
    show UPLOAD_DIR.data.isPrefixOf
      (('/' :: ['d', 'a', 't', 'a']) ++ '/' :: intercalateSlash (x :: xs)) = true
    exact isPrefixOf_append_right UPLOAD_DIR.data ('/' :: intercalateSlash (x :: xs))

theorem pathSegments_join (cleaned : List Char) (h : hasDotDot cleaned = false) :
    pathSegments (posixJoin UPLOAD_DIR.data cleaned)
      = ['d', 'a', 't', 'a'] :: (pathSegments cleaned).filter (fun s => !(s == ['.'])) := by
  rw [posixJoin_root cleaned h]
  have hmem : ∀ s ∈ (['d', 'a', 't', 'a']
      :: (pathSegments cleaned).filter (fun s => !(s == ['.']))),
      s ≠ [] ∧ '/' ∉ s := by
    intro s hs
    rcases List.mem_cons.mp hs with h1 | h2
    · subst h1
      exact ⟨by decide, by decide⟩
    · have h3 : s ∈ pathSegments cleaned := (List.mem_filter.mp h2).1
      have h4 : s ∈ splitOnSlash cleaned := (List.mem_filter.mp h3).1
      refine ⟨?_, splitOnSlash_no_slash cleaned s h4⟩
      have h5 := (List.mem_filter.mp h3).2
      intro he
      subst he
      simp at h5
  rw [pathSegments, splitOnSlash_slash,
    splitOnSlash_intercalate _ hmem (by simp)]
  rw [List.filter_cons, if_neg (by decide)]
  exact List.filter_eq_self.mpr (fun s hs => by
    cases s with
    | nil => exact absurd rfl (hmem [] hs).1
    | cons a t => rfl)

/-! ## Claim theorems: path sandbox -/

/-- C1: every path accepted by `validatePath` resolves inside the storage
    root: the segment sequence of the returned absolute path begins with
    the segment sequence of the storage root (a directory-boundary
    respecting comparison, so a sibling such as /data-other can never be
    returned for root /data). -/
theorem validatePath_stays_in_root (userPath p : String)
    (h : validatePath userPath = .ok p) :
    pathSegments UPLOAD_DIR.data <+: pathSegments p.data := by
  by_cases h0 : userPath = "" ∨ userPath = "/"
  · rw [validatePath, if_pos h0] at h
    simp only [Except.ok.injEq] at h
    rw [← h]
  · rw [validatePath, if_neg h0] at h
    by_cases h1 : (hasDotDot (stripSlashes userPath.data)
        || isAbsoluteChars (stripSlashes userPath.data)) = true
    · rw [if_pos h1] at h
      simp at h
    · rw [if_neg h1] at h
      have hdd : hasDotDot (stripSlashes userPath.data) = false :=
        (Bool.or_eq_false_iff.mp (Bool.not_eq_true _ ▸ h1 : _ = false)).1
      have hpref := root_isPrefixOf_join (stripSlashes userPath.data) hdd
      rw [if_neg (by rw [hpref]; simp)] at h
      simp only [Except.ok.injEq] at h
      rw [← h]
      rw [show (String.mk (posixJoin UPLOAD_DIR.data (stripSlashes userPath.data))).data
          = posixJoin UPLOAD_DIR.data (stripSlashes userPath.data) from rfl]
      rw [pathSegments_join (stripSlashes userPath.data) hdd]
      rw [show pathSegments UPLOAD_DIR.data = [['d', 'a', 't', 'a']] from by decide]
      exact ⟨_, rfl⟩

/-- Witness for C1: the spec's own end-to-end example, photos/vacation
    resolving to /data/photos/vacation, whose segments start with those of
    /data. -/
theorem validatePath_stays_in_root_witness :
    validatePath "photos/vacation" = Except.ok "/data/photos/vacation"
    ∧ pathSegments UPLOAD_DIR.data
        <+: pathSegments ("/data/photos/vacation" : String).data :=
  ⟨by decide,
    validatePath_stays_in_root "photos/vacation" "/data/photos/vacation" (by decide)⟩

/-- C3 counterexample: the claim says an input whose segment merely
    contains two consecutive dots, like a..b, is not rejected, and that
    absolute inputs fail; the code rejects a..b (substring test) and
    accepts the absolute /etc/passwd, resolving it under the root. -/
theorem validatePath_substring_reject :
    validatePath "a..b" = Except.error "Invalid path"
    ∧ validatePath "/etc/passwd" = Except.ok "/data/etc/passwd" :=
  ⟨by decide, by decide⟩

/-- C3 amended: `validatePath` fails, always with the message Invalid
    path, exactly when the input is neither empty nor the single slash
    and the slash-stripped input contains two consecutive dots anywhere
    (so a segment such as a..b is also rejected); an input that was
    absolute is treated as relative once its leading slashes are
    stripped, and the `Path outside storage directory` branch is
    unreachable. -/
theorem validatePath_error_characterization (userPath : String) :
    (validatePath userPath = Except.error "Invalid path"
      ↔ ¬(userPath = "" ∨ userPath = "/")
        ∧ hasDotDot (stripSlashes userPath.data) = true)
    ∧ ∀ e, validatePath userPath = Except.error e → e = "Invalid path" := by
  by_cases h0 : userPath = "" ∨ userPath = "/"
  · constructor
    · rw [validatePath, if_pos h0]
      simp [h0]
    · intro e he
      rw [validatePath, if_pos h0] at he
      simp at he
  · have habs : isAbsoluteChars (stripSlashes userPath.data) = false :=
      stripSlashes_not_absolute userPath.data
    by_cases hdd : hasDotDot (stripSlashes userPath.data) = true
    · have herr : validatePath userPath = Except.error "Invalid path" := by
        rw [validatePath, if_neg h0, if_pos (by rw [hdd]; rfl)]
      constructor
      · simp [herr, h0, hdd]
      · intro e he
        rw [herr] at he
        simp only [Except.error.injEq] at he
        exact he.symm
    · have hdd' : hasDotDot (stripSlashes userPath.data) = false := by
        revert hdd
        cases hasDotDot (stripSlashes userPath.data) <;> simp
      have hpref := root_isPrefixOf_join (stripSlashes userPath.data) hdd'
      have hok : validatePath userPath
          = Except.ok (String.mk (posixJoin UPLOAD_DIR.data
              (stripSlashes userPath.data))) := by
        rw [validatePath, if_neg h0, if_neg (by rw [hdd', habs]; simp),
          if_neg (by rw [hpref]; simp)]
      constructor
      · rw [hok]
        simp [hdd']
      · intro e he
        rw [hok] at he
        simp at he

/-- Witness for C3 amended: an input with the traversal dots inside a
    segment is rejected through the characterization. -/
theorem validatePath_error_characterization_witness :
    validatePath "x/..y" = Except.error "Invalid path" :=
  (validatePath_error_characterization "x/..y").1.mpr (by decide)

/-! ## Hook chain lemmas -/

theorem runCallbacks_eq_foldl {α : Type} (cbs : List (Callback α)) (d : α) :
    runCallbacks cbs d = cbs.foldl (fun x cb => applyCallback cb x) d := by
  induction cbs generalizing d with
  | nil => rfl
  | cons cb rest ih =>
    cases h : cb d with
    | ret o =>
      cases o with
      | none => simp [runCallbacks, applyCallback, h, ih]
      | some v => simp [runCallbacks, applyCallback, h, ih]
    | thrown e => simp [runCallbacks, applyCallback, h, ih]

theorem executeHook_eq_foldl {α ρ : Type} (st : ManagerState (Callback α) ρ)
    (hookName : String) (data : α) :
    executeHook st hookName data
      = (lookupHooks st.hooks hookName).foldl (fun x cb => applyCallback cb x) data := by
  unfold executeHook
  cases hl : lookupHooks st.hooks hookName with
  | nil => simp [hl]
  | cons cb rest => simp [hl, runCallbacks_eq_foldl]

theorem lookupHooks_insertHook {κ : Type} (hooks : List (String × List κ)) (n : String)
    (cb : κ) : lookupHooks (insertHook hooks n cb) n = lookupHooks hooks n ++ [cb] := by
  induction hooks with
  | nil => simp [insertHook, lookupHooks, List.lookup]
  | cons q rest ih =>
    obtain ⟨m, cbs⟩ := q
    by_cases hm : m = n
    · subst hm
      simp [insertHook, lookupHooks, List.lookup]
    · have hbeq : (n == m) = false := by
        simp [BEq.beq]
        exact fun he => hm he.symm
      simp [insertHook, hm, lookupHooks, List.lookup, hbeq] at ih ⊢
      exact ih

/-! ## Claim theorems: hook chain -/

/-- C6: `executeHook` runs the registered callbacks for the hook name
    strictly in registration order, feeding each the current payload; a
    returned value replaces the payload and an undefined return leaves it
    unchanged (both captured by `applyCallback` folded left over the
    list); registering appends to the end of the callback list; and with
    zero registered callbacks the input payload is returned unchanged. -/
theorem executeHook_registration_order {α ρ : Type} (st : ManagerState (Callback α) ρ)
    (hookName : String) (data : α) (cb : Callback α) :
    executeHook st hookName data
      = (lookupHooks st.hooks hookName).foldl (fun x c => applyCallback c x) data
    ∧ lookupHooks (registerHook st hookName cb).hooks hookName
      = lookupHooks st.hooks hookName ++ [cb]
    ∧ (lookupHooks st.hooks hookName = [] → executeHook st hookName data = data) := by
  refine ⟨executeHook_eq_foldl st hookName data, ?_, ?_⟩
  · exact lookupHooks_insertHook st.hooks hookName cb
  · intro h
    rw [executeHook_eq_foldl, h]
    rfl

/-- Witness for C6 at a concrete state with no callbacks registered. -/
theorem executeHook_registration_order_witness :
    lookupHooks (initialState : ManagerState (Callback Nat) Nat).hooks "transformFileList" = []
    ∧ executeHook (initialState : ManagerState (Callback Nat) Nat) "transformFileList" 7 = 7 :=
  ⟨rfl, (executeHook_registration_order (initialState : ManagerState (Callback Nat) Nat)
    "transformFileList" 7 cbAddTen).2.2 rfl⟩

/-- C2: a callback that throws during `executeHook` is skipped and the
    chain continues with the payload unchanged by the failed step; with
    three callbacks of which the second throws, the third still runs on
    the payload produced by the first, and `executeHook` returns normally
    instead of propagating the exception. -/
theorem executeHook_error_isolation {α ρ : Type} (st : ManagerState (Callback α) ρ)
    (hookName : String) (pre post : List (Callback α)) (e : String) (data : α)
    (h : lookupHooks st.hooks hookName
      = pre ++ (fun _ => HookOutcome.thrown e) :: post) :
    executeHook st hookName data
      = (pre ++ post).foldl (fun x c => applyCallback c x) data
    ∧ ∀ cb1 cb3 : Callback α, ∀ st2 : ManagerState (Callback α) ρ,
        lookupHooks st2.hooks hookName = [cb1, fun _ => HookOutcome.thrown e, cb3] →
        executeHook st2 hookName data = applyCallback cb3 (applyCallback cb1 data) := by
  constructor
  · rw [executeHook_eq_foldl, h, List.foldl_append, List.foldl_cons, List.foldl_append]
    rfl
  · intro cb1 cb3 st2 h2
    rw [executeHook_eq_foldl, h2]
    rfl

/-- Witness for C2: add ten, then a throwing callback, then double; the
    payload 1 becomes 22, so the third callback saw the payload 11
    produced by the first. -/
theorem executeHook_error_isolation_witness :
    executeHook demoHookState "transformFileList" 1 = 22 :=
  ((executeHook_error_isolation demoHookState "transformFileList" [cbAddTen] [cbDouble]
    "boom" 1 rfl).2 cbAddTen cbDouble demoHookState rfl).trans rfl

/-! ## Folder summarizer lemmas and claims -/

theorem metaLoop_spec (cs : List (String × FsNode)) (h : childrenReadable cs = true)
    (ic ts : Nat) :
    metaLoop cs ic ts
      = .ok ⟨ic + cs.length, ts + (cs.map (fun c => childContribution c.2)).sum⟩ := by
  induction cs generalizing ic ts with
  | nil => simp [metaLoop]
  | cons c rest ih =>
    obtain ⟨nm, child⟩ := c
    simp only [childrenReadable, List.all_cons, Bool.and_eq_true] at h
    have hrest : childrenReadable rest = true := h.2
    cases child with
    | file k =>
      rw [show metaLoop ((nm, FsNode.file k) :: rest) ic ts
          = metaLoop rest (ic + 1) (ts + k) from rfl]
      rw [ih hrest]
      simp only [List.map_cons, List.sum_cons, List.length_cons,
        Except.ok.injEq, FolderMeta.mk.injEq, childContribution]
      omega
    | dir sz cs' =>
      rw [show metaLoop ((nm, FsNode.dir sz cs') :: rest) ic ts
          = metaLoop rest (ic + 1) (ts + sumSubSizes cs') from rfl]
      rw [ih hrest]
      simp only [List.map_cons, List.sum_cons, List.length_cons,
        Except.ok.injEq, FolderMeta.mk.injEq, childContribution]
      omega
    | badDir sz => simp at h

/-- C9: `getFolderMetadata` on a directory whose children are readable
    returns itemCount equal to the number of direct children and
    totalSize equal to the sum of the children's contributions, a file
    contributing its size and a child subdirectory the sum of its own
    direct children's sizes. -/
theorem getFolderMetadata_spec (sz : Nat) (cs : List (String × FsNode))
    (h : childrenReadable cs = true) :
    getFolderMetadata (.dir sz cs) = .ok (summarizeSpec cs) := by
  rw [show getFolderMetadata (.dir sz cs) = metaLoop cs 0 0 from rfl]
  rw [metaLoop_spec cs h 0 0]
  simp [summarizeSpec]

/-- Witness for C9: three files of sizes 10, 20, 30 and one empty
    subdirectory give itemCount 4 and totalSize 60. -/
theorem getFolderMetadata_spec_witness :
    childrenReadable demoFolder = true
    ∧ getFolderMetadata (FsNode.dir 0 demoFolder) = Except.ok ⟨4, 60⟩ :=
  ⟨by decide, (getFolderMetadata_spec 0 demoFolder (by decide)).trans (by decide)⟩

/-- C4 counterexample: a filesystem error while reading one child
    subdirectory makes the whole `getFolderMetadata` call fail instead of
    letting that child contribute zero while the remaining children are
    still summed; here the readable sibling of size 7 never reaches the
    total because the computation rejects. -/
theorem getFolderMetadata_aborts_on_bad_child :
    getFolderMetadata (FsNode.dir 0 [("bad", FsNode.badDir 0), ("ok", FsNode.file 7)])
      = Except.error "EACCES" := by decide

/-- C4 amended: a filesystem error reading a child subdirectory aborts
    that directory's `getFolderMetadata` as a whole; the /api/files
    caller catches the failure per listing entry, reporting itemCount 0
    for that entry while keeping its stat size, and the remaining listing
    entries are produced unaffected. -/
theorem listDirectory_catches_bad_entry (sz bsz : Nat) (nm : String)
    (pre post : List (String × FsNode)) :
    listDirectory (FsNode.dir sz (pre ++ (nm, FsNode.badDir bsz) :: post))
      = Except.ok (pre.map (fun c => buildEntryInfo c.1 c.2)
          ++ ⟨nm, bsz, true, some 0⟩ :: post.map (fun c => buildEntryInfo c.1 c.2)) := by
  rw [show listDirectory (FsNode.dir sz (pre ++ (nm, FsNode.badDir bsz) :: post))
      = Except.ok ((pre ++ (nm, FsNode.badDir bsz) :: post).map
          (fun c => buildEntryInfo c.1 c.2)) from rfl]
  rw [List.map_append, List.map_cons]
  rw [show buildEntryInfo nm (FsNode.badDir bsz) = ⟨nm, bsz, true, some 0⟩ from rfl]

/-- Witness for C4 amended at a concrete two-entry directory. -/
theorem listDirectory_catches_bad_entry_witness :
    listDirectory (FsNode.dir 0 [("a.txt", FsNode.file 3), ("bad", FsNode.badDir 5)])
      = Except.ok [⟨"a.txt", 3, false, none⟩, ⟨"bad", 5, true, some 0⟩] :=
  (listDirectory_catches_bad_entry 0 5 "bad" [("a.txt", FsNode.file 3)] []).trans
    (by decide)

/-! ## Plugin manager lemmas -/

theorem registerHook_plugins {κ ρ : Type} (st : ManagerState κ ρ) (n : String) (cb : κ) :
    (registerHook st n cb).plugins = st.plugins := rfl

theorem applyHookRegs_plugins {κ ρ : Type} (regs : List (String × κ)) :
    ∀ st : ManagerState κ ρ, (applyHookRegs st regs).plugins = st.plugins := by
  induction regs with
  | nil => intro st; rfl
  | cons r rest ih => intro st; exact ih (registerHook st r.1 r.2)

theorem applyRouteRegs_plugins {κ ρ : Type} (rs : List (Route ρ)) :
    ∀ st : ManagerState κ ρ, (applyRouteRegs st rs).plugins = st.plugins := by
  induction rs with
  | nil => intro st; rfl
  | cons r rest ih => intro st; exact ih (addRoute st r)

theorem loadPlugin_of_wellFormed {κ ρ : Type} (st : ManagerState κ ρ)
    (p : PluginOnDisk κ ρ) (h : wellFormed p = true) :
    loadPlugin st p
      = setPlugin (applyRouteRegs (applyHookRegs st p.module.hookRegs) p.module.routeRegs)
          p.dirName (mkStored p) := by
  simp only [wellFormed, Bool.and_eq_true, Bool.not_eq_true'] at h
  obtain ⟨⟨⟨h1, h2⟩, h3⟩, h4⟩ := h
  have h2' : ¬ p.config.enabled = some false := by
    intro hc
    rw [hc] at h2
    simp at h2
  simp [loadPlugin, h1, h2', h3, h4]

theorem loadPlugin_plugins_of_loadFails {κ ρ : Type} (st : ManagerState κ ρ)
    (p : PluginOnDisk κ ρ) (h : loadFails p = true) :
    (loadPlugin st p).plugins = st.plugins := by
  by_cases h1 : p.hasIndex = true
  · by_cases h2 : p.config.enabled = some false
    · simp [loadPlugin, h1, h2]
    · by_cases h3 : p.module.hasInit = true
      · by_cases h4 : p.module.initThrows = true
        · simp [loadPlugin, h1, h2, h3, h4, applyRouteRegs_plugins, applyHookRegs_plugins]
        · exfalso
          have h4' : p.module.initThrows = false := by
            revert h4; cases p.module.initThrows <;> simp
          simp [loadFails, h1, h3, h4'] at h
      · have h3' : p.module.hasInit = false := by
          revert h3; cases p.module.hasInit <;> simp
        simp [loadPlugin, h1, h2, h3']
  · have h1' : p.hasIndex = false := by
      revert h1; cases p.hasIndex <;> simp
    simp [loadPlugin, h1']

theorem insertPlugin_append (m : List (String × StoredPlugin)) (k : String)
    (v : StoredPlugin) (h : ∀ q ∈ m, q.1 ≠ k) :
    insertPlugin m k v = m ++ [(k, v)] := by
  induction m with
  | nil => rfl
  | cons q rest ih =>
    obtain ⟨k', v'⟩ := q
    have hk : k' ≠ k := h ⟨k', v'⟩ (List.mem_cons_self _ _)
    rw [show insertPlugin ((k', v') :: rest) k v
        = if k' = k then (k, v) :: rest else (k', v') :: insertPlugin rest k v from rfl]
    rw [if_neg hk, ih (fun q hq => h q (List.mem_cons_of_mem _ hq))]
    rfl

/-! ## Claim theorems: plugin manager -/

/-- C8: a plugin whose configuration record has enabled explicitly false
    is skipped entirely: loading it returns the manager state unchanged
    (hook map, route list, plugin map), so it is absent from
    introspection. -/
theorem loadPlugin_disabled {κ ρ : Type} (st : ManagerState κ ρ)
    (p : PluginOnDisk κ ρ) (h : p.config.enabled = some false) :
    loadPlugin st p = st
    ∧ getPluginInfo (loadPlugin st p) = getPluginInfo st := by
  have heq : loadPlugin st p = st := by
    cases hI : p.hasIndex with
    | false => simp [loadPlugin, hI]
    | true => simp [loadPlugin, hI, h]
  exact ⟨heq, by rw [heq]⟩

/-- Witness for C8 at a concrete disabled plugin. -/
theorem loadPlugin_disabled_witness :
    loadPlugin (initialState : ManagerState Nat Nat) demoDisabledPlugin = initialState
    ∧ getPluginInfo (loadPlugin (initialState : ManagerState Nat Nat) demoDisabledPlugin)
        = getPluginInfo (initialState : ManagerState Nat Nat) :=
  loadPlugin_disabled initialState demoDisabledPlugin rfl

/-- C5: over a plugins directory holding one well-formed plugin and one
    malformed plugin (missing entry module, missing init, or init
    throwing), loading completes and `getPluginInfo` yields exactly the
    entry of the well-formed plugin, in either discovery order. -/
theorem loadPlugins_partial_failure {κ ρ : Type} (g b : PluginOnDisk κ ρ)
    (hg : wellFormed g = true) (hb : loadFails b = true)
    (hgn : isReservedName g.dirName = false) (hbn : isReservedName b.dirName = false) :
    getPluginInfo (loadPlugins (initialState : ManagerState κ ρ)
        [.subdir b, .subdir g]) = [mkStored g]
    ∧ getPluginInfo (loadPlugins (initialState : ManagerState κ ρ)
        [.subdir g, .subdir b]) = [mkStored g] := by
  have hdisc1 : discoverPlugins [PluginsDirEntry.subdir b, PluginsDirEntry.subdir g]
      = [b, g] := by
    simp [discoverPlugins, hbn, hgn]
  have hdisc2 : discoverPlugins [PluginsDirEntry.subdir g, PluginsDirEntry.subdir b]
      = [g, b] := by
    simp [discoverPlugins, hbn, hgn]
  constructor
  · rw [loadPlugins, hdisc1]
    rw [show List.foldl loadPlugin (initialState : ManagerState κ ρ) [b, g]
        = loadPlugin (loadPlugin initialState b) g from rfl]
    rw [getPluginInfo, loadPlugin_of_wellFormed _ g hg]
    rw [show (setPlugin (applyRouteRegs (applyHookRegs (loadPlugin initialState b)
        g.module.hookRegs) g.module.routeRegs) g.dirName (mkStored g)).plugins
      = insertPlugin (applyRouteRegs (applyHookRegs (loadPlugin initialState b)
          g.module.hookRegs) g.module.routeRegs).plugins g.dirName (mkStored g) from rfl]
    rw [applyRouteRegs_plugins, applyHookRegs_plugins,
      loadPlugin_plugins_of_loadFails _ b hb]
    rfl
  · rw [loadPlugins, hdisc2]
    rw [show List.foldl loadPlugin (initialState : ManagerState κ ρ) [g, b]
        = loadPlugin (loadPlugin initialState g) b from rfl]
    rw [getPluginInfo, loadPlugin_plugins_of_loadFails _ b hb]
    rw [loadPlugin_of_wellFormed _ g hg]
    rw [show (setPlugin (applyRouteRegs (applyHookRegs (initialState : ManagerState κ ρ)
        g.module.hookRegs) g.module.routeRegs) g.dirName (mkStored g)).plugins
      = insertPlugin (applyRouteRegs (applyHookRegs (initialState : ManagerState κ ρ)
          g.module.hookRegs) g.module.routeRegs).plugins g.dirName (mkStored g) from rfl]
    rw [applyRouteRegs_plugins, applyHookRegs_plugins]
    rfl

/-- Witness for C5: a good plugin and an init-less plugin, loaded with
    the bad one first; introspection holds exactly the good entry. -/
theorem loadPlugins_partial_failure_witness :
    getPluginInfo (loadPlugins (initialState : ManagerState Nat Nat)
        [PluginsDirEntry.subdir demoBadPlugin, PluginsDirEntry.subdir demoGoodPlugin])
      = [⟨"Alpha", "2.0.0", "demo"⟩] :=
  ((loadPlugins_partial_failure demoGoodPlugin demoBadPlugin (by decide) (by decide)
    (by decide) (by decide)).1).trans (by decide)

/-- C7 counterexample: discovery yields candidates in the order the
    directory read returned them, not in lexicographic order; with beta
    listed before acorn the discovered names stay beta, acorn, which is
    not the lexicographic order acorn, beta. -/
theorem discoverPlugins_not_sorted :
    (discoverPlugins [PluginsDirEntry.subdir demoPluginBeta,
        PluginsDirEntry.subdir demoPluginAcorn]).map PluginOnDisk.dirName
      = ["beta", "acorn"]
    ∧ (["beta", "acorn"] : List String) ≠ ["acorn", "beta"] :=
  ⟨by decide, by decide⟩

/-- C7 amended: discovery enumerates exactly the immediate
    subdirectories whose names do not begin with an underscore or a dot,
    preserving the order in which the directory read returned the
    entries (no lexicographic sorting is applied). -/
theorem discoverPlugins_filter_order {κ ρ : Type}
    (entries : List (PluginsDirEntry κ ρ)) :
    ((discoverPlugins entries).map PluginOnDisk.dirName).Sublist
        (entries.map entryName)
    ∧ ∀ p : PluginOnDisk κ ρ,
        (p ∈ discoverPlugins entries
          ↔ PluginsDirEntry.subdir p ∈ entries ∧ isReservedName p.dirName = false) := by
  constructor
  · induction entries with
    | nil => simp [discoverPlugins]
    | cons e rest ih =>
      cases e with
      | file n =>
        rw [show discoverPlugins (PluginsDirEntry.file n :: rest)
            = discoverPlugins rest from rfl]
        exact ih.cons _
      | subdir p =>
        by_cases hr : isReservedName p.dirName = true
        · rw [show discoverPlugins (PluginsDirEntry.subdir p :: rest)
              = discoverPlugins rest from by
            simp [discoverPlugins, List.filterMap_cons, hr]]
          exact ih.cons _
        · rw [show discoverPlugins (PluginsDirEntry.subdir p :: rest)
              = p :: discoverPlugins rest from by
            simp [discoverPlugins, List.filterMap_cons, hr]]
          rw [List.map_cons]
          exact ih.cons₂ _
  · intro p
    constructor
    · intro hp
      obtain ⟨a, ha, hfa⟩ := List.mem_filterMap.mp hp
      cases a with
      | file n => simp at hfa
      | subdir q =>
        by_cases hr : isReservedName q.dirName = true
        · simp [hr] at hfa
        · have hq : q = p := by
            simp only [hr] at hfa
            simpa [hr] using hfa
          subst hq
          refine ⟨ha, ?_⟩
          revert hr
          cases isReservedName q.dirName <;> simp
    · rintro ⟨hmem, hres⟩
      exact List.mem_filterMap.mpr ⟨PluginsDirEntry.subdir p, hmem, by simp [hres]⟩

/-- Witness for C7 amended: order preservation at a concrete entry list. -/
theorem discoverPlugins_filter_order_witness :
    ((discoverPlugins [PluginsDirEntry.subdir demoPluginBeta,
        PluginsDirEntry.file "readme.txt",
        PluginsDirEntry.subdir demoPluginAcorn]).map PluginOnDisk.dirName).Sublist
      ([PluginsDirEntry.subdir demoPluginBeta,
        PluginsDirEntry.file "readme.txt",
        PluginsDirEntry.subdir demoPluginAcorn].map entryName) :=
  (discoverPlugins_filter_order [PluginsDirEntry.subdir demoPluginBeta,
    PluginsDirEntry.file "readme.txt", PluginsDirEntry.subdir demoPluginAcorn]).1

/-- C10: a successfully loaded plugin is recorded for introspection with
    the directory name when the module exports no name, version 1.0.0
    when it exports no version, and the empty description when it exports
    no description. -/
theorem getPluginInfo_defaults {κ ρ : Type} (st : ManagerState κ ρ)
    (p : PluginOnDisk κ ρ) (h : wellFormed p = true)
    (hkey : ∀ q ∈ st.plugins, q.1 ≠ p.dirName) :
    getPluginInfo (loadPlugin st p) = getPluginInfo st ++ [mkStored p]
    ∧ (p.module.mname = none → (mkStored p).pname = p.dirName)
    ∧ (p.module.version = none → (mkStored p).version = "1.0.0")
    ∧ (p.module.description = none → (mkStored p).description = "") := by
  refine ⟨?_, ?_, ?_, ?_⟩
  · rw [loadPlugin_of_wellFormed st p h]
    show (insertPlugin (applyRouteRegs (applyHookRegs st p.module.hookRegs)
        p.module.routeRegs).plugins p.dirName (mkStored p)).map (fun q => q.2)
      = getPluginInfo st ++ [mkStored p]
    rw [applyRouteRegs_plugins, applyHookRegs_plugins,
      insertPlugin_append st.plugins p.dirName (mkStored p) hkey]
    simp [getPluginInfo]
  · intro hn
    simp [mkStored, jsOr, hn]
  · intro hv
    simp [mkStored, jsOr, hv]
  · intro hd
    simp [mkStored, jsOr, hd]

/-- Witness for C10: a plugin exporting no metadata is stored under its
    directory name with version 1.0.0 and an empty description. -/
theorem getPluginInfo_defaults_witness :
    getPluginInfo (loadPlugin (initialState : ManagerState Nat Nat) demoBarePlugin)
      = [⟨"bare", "1.0.0", ""⟩] :=
  ((getPluginInfo_defaults (initialState : ManagerState Nat Nat) demoBarePlugin
    (by decide) (fun q hq => absurd hq (List.not_mem_nil q))).1).trans (by decide)

end QuickNAS

